import Mathlib

/-!
Verification development for the `visistruct` repository
(src/visistruct/visistruct.py).

The Python source is shallowly embedded below.  The schema-node
classifier of the source (the `tokens` regex walk over `str(sub)` that
produces the `types` list) is folded into the `Schema` inductive: each
constructor corresponds to one of the closed set of shapes the source
dispatches on in `create_fields` (`Const`, `FormatField`, `Enum`,
`StringEncoded` with `NullTerminated` / `FixedSized` / `Prefixed`,
`Struct`, `Array` of structs, `Array` of `FormatField`).

The external `construct` codec library (providing `build` / `parse`,
declared an external collaborator by the specification) is not part of
the repository; its `build` function is modelled from the specification
further below.
-/

set_option maxHeartbeats 1000000

namespace Visistruct

/-- One step of a namespace path: a field name or an array index
(`namespace: Optional[List[Union[str, int]]]` in the source). -/
inductive Step where
  | str (s : String)
  | idx (i : Nat)
deriving DecidableEq, Repr

/-- Decoded values: the shapes a `construct` parse result can take that
the source manipulates (`Container` = dict, `ListContainer` = list,
integers, strings, and `EnumIntegerString` which carries both a label
and the underlying integer). -/
inductive Value where
  | vInt (n : Int)
  | vStr (s : String)
  | vEnum (label : String) (n : Int)
  | vList (xs : List Value)
  | vContainer (entries : List (String × Value))

/-- Python `value[step]`: dict lookup by string key, list indexing by
integer.  Any other combination raises (`KeyError` / `TypeError`),
modelled as `none`. -/
def Value.getitem : Value → Step → Option Value
  | .vContainer es, .str k => List.lookup k es
  | .vList xs, .idx i => xs.get? i
  | _, _ => none

/-- Top-level lookup `self.parsed[name]` used by the source for string
lengths and dynamic array counts. -/
def topGet (parsed : Value) (name : String) : Option Value :=
  parsed.getitem (.str name)

/-- Source line 178: `reduce(operator.getitem, namespace, self.parsed)`. -/
def reduceGetitem (v : Value) : List Step → Option Value
  | [] => some v
  | s :: rest =>
    match v.getitem s with
    | some v2 => reduceGetitem v2 rest
    | none => none

/-- Source lines 182-187: walk backwards through the namespace until a
string is found; if there is none a `ValueError` is raised. -/
def lastString : List Step → Option String
  | [] => none
  | s :: rest =>
    match lastString rest with
    | some p => some p
    | none =>
      match s with
      | .str n => some n
      | .idx _ => none

/-- Source lines 190-193: if the namespace-resolved value is a
`Container`, index it by the field's own name; a `ListContainer` is
copied (identity here). -/
def containerTransform (name : String) : Value → Option Value
  | .vContainer es => List.lookup name es
  | v => some v

/-- Source lines 175-195: resolve the field's `value` and `parent` from
the decoded value.  With a truthy namespace the value is resolved by
walking the namespace (and the parent is the last string step in it);
otherwise `self.parsed[name]` is used and the parent stays empty. -/
def resolveValue (parsed : Value) (name : String) (ns : Option (List Step)) :
    Option (Value × String) :=
  match ns with
  | some steps =>
    if steps.isEmpty then
      match topGet parsed name with
      | some v => some (v, "")
      | none => none
    else
      match reduceGetitem parsed steps with
      | none => none
      | some v =>
        match lastString steps with
        | none => none
        | some par =>
          match containerTransform name v with
          | none => none
          | some v2 => some (v2, par)
  | none =>
    match topGet parsed name with
    | some v => some (v, "")
    | none => none

/-- Source lines 197-198: an `EnumIntegerString` value is turned into
its plain display string. -/
def unwrapEnum : Value → Value
  | .vEnum s _ => .vStr s
  | v => v

/-- Source lines 247-250: `if not namespace: namespace = [name] else:
namespace.append(name)` — the namespace extension of the struct
branch. -/
def pushName (ns : Option (List Step)) (name : String) : List Step :=
  match ns with
  | none => [Step.str name]
  | some steps => if steps.isEmpty then [Step.str name] else steps ++ [Step.str name]

/-- String encodings used by the fixtures, with the terminator unit
width from `construct.possiblestringencodings`. -/
inductive Enc where
  | ascii | u8 | u16 | u32
deriving DecidableEq, Repr

/-- Terminator / unit width of the encoding
(`construct.possiblestringencodings[enc]`). -/
def Enc.termWidth : Enc → Nat
  | .ascii => 1
  | .u8 => 1
  | .u16 => 2
  | .u32 => 4

/-- Modelled from the spec: the byte encoding of a decoded string
(`s.encode(enc)` of the external codec layer).  Only the byte length is
semantically load-bearing for the claims: one byte per character for
the single-byte encodings, a byte-order mark plus two (resp. four)
bytes per character for the wide encodings. -/
def Enc.encodeStr : Enc → String → List Nat
  | .ascii, s => s.data.map (fun c => c.toNat % 256)
  | .u8, s => s.data.map (fun c => c.toNat % 256)
  | .u16, s => 255 :: 254 :: (s.data.flatMap (fun c => [c.toNat % 256, c.toNat / 256 % 256]))
  | .u32, s => 255 :: 254 :: 0 :: 0 ::
      (s.data.flatMap (fun c => [c.toNat % 256, c.toNat / 256 % 256, c.toNat / 65536 % 256, 0]))

/-- Modelled from the spec: `construct.VarInt` encoding (little-endian
base-128), the length-prefix scheme used by the `PascalString`
fixtures.  Its width is 1 byte exactly when the value is below 128. -/
def varIntBytes (n : Nat) : List Nat :=
  if h : n < 128 then [n]
  else (n % 128 + 128) :: varIntBytes (n / 128)
termination_by n
decreasing_by
  exact Nat.div_lt_self (Nat.lt_of_lt_of_le (by norm_num) (Nat.le_of_not_lt h)) (by norm_num)

/-- Byte order selector of a `FormatField` format string. -/
inductive ByteOrder where
  | big | little | native
deriving DecidableEq, Repr

/-- Element-kind letter of a `FormatField` format string. -/
inductive NumCode where
  | B | b | H | h | L | l | Q | q | e | f | d
deriving DecidableEq, Repr

def ByteOrder.ch : ByteOrder → Char
  | .big => '>'
  | .little => '<'
  | .native => '='

def NumCode.ch : NumCode → Char
  | .B => 'B'
  | .b => 'b'
  | .H => 'H'
  | .h => 'h'
  | .L => 'L'
  | .l => 'l'
  | .Q => 'Q'
  | .q => 'q'
  | .e => 'e'
  | .f => 'f'
  | .d => 'd'

/-- Byte width of the element kind (`struct.calcsize`, surfaced by the
source as `sub.subcon.length`). -/
def NumCode.width : NumCode → Nat
  | .B => 1
  | .b => 1
  | .H => 2
  | .h => 2
  | .L => 4
  | .l => 4
  | .Q => 8
  | .q => 8
  | .e => 2
  | .f => 4
  | .d => 8

/-- A `FormatField` descriptor: byte order plus element kind. -/
structure FmtStr where
  order : ByteOrder
  code : NumCode
deriving DecidableEq, Repr

/-- The two-character format string (`sub.subcon.fmtstr`). -/
def FmtStr.s (f : FmtStr) : String :=
  String.mk [f.order.ch, f.code.ch]

/-- Source lines 21-62: the `NUMBER_TYPES` dict, entry for entry in
source order, including the entries for `">Q"` and `"=Q"` exactly as
they appear in the source. -/
def NUMBER_TYPES : List (String × String) :=
  [(">B", "Int8ub"), (">H", "Int16ub"), (">L", "Int32ub"), (">Q", "Int32ub"),
   (">b", "Int8sb"), (">h", "Int16sb"), (">l", "Int32sb"), (">q", "Int64sb"),
   ("<B", "Int8ul"), ("<H", "Int16ul"), ("<L", "Int32ul"), ("<Q", "Int64ul"),
   ("<b", "Int8sl"), ("<h", "Int16sl"), ("<l", "Int32sl"), ("<q", "Int64sl"),
   ("=B", "Int8un"), ("=H", "Int16un"), ("=L", "Int32un"), ("=Q", "Int32un"),
   ("=b", "Int8sn"), ("=h", "Int16sn"), ("=l", "Int32sn"), ("=q", "Int64sn"),
   (">e", "Float16b"), ("<e", "Float16l"), ("=e", "Float16n"),
   (">f", "Float32b"), ("<f", "Float32l"), ("=f", "Float32n"),
   (">d", "Float64b"), ("<d", "Float64l"), ("=d", "Float64n")]

/-- Schema nodes: the closed set of structural variants the source
classifies in `create_fields` (lines 214-283). -/
inductive Schema where
  | const (name : String) (literal : List Nat)
  | number (name : String) (fmt : FmtStr)
  | enumNumber (name : String) (fmt : FmtStr)
  | cstring (name : String) (enc : Enc)
  | paddedString (name : String) (size : Nat) (enc : Enc)
  | pascalString (name : String) (enc : Enc)
  | struct (name : String) (subs : List Schema)
  | arrayOfStruct (name : String) (countField : String) (elem : List Schema)
  | arrayOfNumber (name : String) (count : Nat) (fmt : FmtStr)

/-- Source lines 85-96: the `Field` dataclass. -/
structure Field where
  name : String
  type : String
  length : Nat
  value : Option Value
  parent : String
  nested : Nat
  offset : Nat
  color : String

/-!
The recursive schema walk of `create_fields` (source lines 157-283),
before the offset/color post-pass.  `walkList` iterates the subcons of
one level, threading the mutable `namespace` / `nested` pair exactly as
the source does (both are reset to `None` / `0` after a struct or an
array-of-struct branch, source lines 253-255 and 267-269).  `walkOne`
handles a single subcon; `walkIdx` is the `for idx in range(_len)` loop
of the dynamic-array branch (lines 261-266).  A Python exception
(`KeyError`, `IndexError`, `TypeError`, `ValueError`) is modelled as
`none`.
-/
mutual

def walkList (parsed : Value) : List Schema → Option (List Step) → Nat →
    Option (List Field × Option (List Step) × Nat)
  | [], ns, l => some ([], ns, l)
  | sub :: rest, ns, l =>
    match walkOne parsed sub ns l with
    | none => none
    | some (fs1, ns1, l1) =>
      match walkList parsed rest ns1 l1 with
      | none => none
      | some (fs2, ns2, l2) => some (fs1 ++ fs2, ns2, l2)
termination_by subs ns l => (sizeOf subs, 0)
decreasing_by all_goals simp_wf <;> omega

def walkOne (parsed : Value) : Schema → Option (List Step) → Nat →
    Option (List Field × Option (List Step) × Nat)
  | .const name lit, ns, l =>
    match resolveValue parsed name ns with
    | none => none
    | some (v, par) =>
      some ([Field.mk name "Const" lit.length (some (unwrapEnum v)) par l 0 ""], ns, l)
  | .number name fmt, ns, l =>
    match resolveValue parsed name ns with
    | none => none
    | some (v, par) =>
      match List.lookup (FmtStr.s fmt) NUMBER_TYPES with
      | none => none
      | some tname =>
        some ([Field.mk name tname fmt.code.width (some (unwrapEnum v)) par l 0 ""], ns, l)
  | .enumNumber name fmt, ns, l =>
    match resolveValue parsed name ns with
    | none => none
    | some (v, par) =>
      match List.lookup (FmtStr.s fmt) NUMBER_TYPES with
      | none => none
      | some tname =>
        some ([Field.mk name ("Enum(" ++ tname ++ ")") fmt.code.width
                (some (unwrapEnum v)) par l 0 ""], ns, l)
  | .cstring name enc, ns, l =>
    match resolveValue parsed name ns with
    | none => none
    | some (v, par) =>
      match topGet parsed name with
      | some (.vStr s) =>
        some ([Field.mk name "CString" ((enc.encodeStr s).length + enc.termWidth)
                (some (unwrapEnum v)) par l 0 ""], ns, l)
      | _ => none
  | .paddedString name size _, ns, l =>
    match resolveValue parsed name ns with
    | none => none
    | some (v, par) =>
      some ([Field.mk name "PaddedString" size (some (unwrapEnum v)) par l 0 ""], ns, l)
  | .pascalString name enc, ns, l =>
    match resolveValue parsed name ns with
    | none => none
    | some (v, par) =>
      match topGet parsed name with
      | some (.vStr s) =>
        some ([Field.mk name "PascalString" ((enc.encodeStr s).length + 1)
                (some (unwrapEnum v)) par l 0 ""], ns, l)
      | _ => none
  | .struct name subs, ns, l =>
    match resolveValue parsed name ns with
    | none => none
    | some _ =>
      match walkList parsed subs (some (pushName ns name)) (l + 1) with
      | none => none
      | some (fs, _, _) => some (fs, none, 0)
  | .arrayOfStruct name cf elem, ns, l =>
    match resolveValue parsed name ns with
    | none => none
    | some _ =>
      match topGet parsed cf with
      | some (.vInt k) =>
        match walkIdx parsed name elem k.toNat 0 (l + 1) with
        | none => none
        | some fs => some (fs, none, 0)
      | _ => none
  | .arrayOfNumber name cnt fmt, ns, l =>
    match resolveValue parsed name ns with
    | none => none
    | some (v, par) =>
      match List.lookup (FmtStr.s fmt) NUMBER_TYPES with
      | none => none
      | some tname =>
        some ([Field.mk name ("Array[" ++ tname ++ "]") (cnt * fmt.code.width)
                (some (unwrapEnum v)) par l 0 ""], ns, l)
termination_by sub ns l => (sizeOf sub, 0)
decreasing_by all_goals simp_wf <;> omega

def walkIdx (parsed : Value) (name : String) (elem : List Schema) :
    Nat → Nat → Nat → Option (List Field)
  | 0, _, _ => some []
  | remaining + 1, i, l =>
    match walkList parsed elem (some [Step.str name, Step.idx i]) l with
    | none => none
    | some (fs, _, _) =>
      match walkIdx parsed name elem remaining (i + 1) l with
      | none => none
      | some fs2 => some (fs ++ fs2)
termination_by remaining i l => (sizeOf elem, remaining + 1)
decreasing_by all_goals simp_wf <;> omega

end

/-- Source lines 286-288: the fixed cyclic color palette. -/
def PALETTE : List String :=
  ["cyan", "green", "blue", "yellow", "purple", "red"]

/-- The color handed out for the field at emission position `i`
(`itertools.cycle` advanced once per field). -/
def paletteAt (i : Nat) : String :=
  PALETTE.getD (i % 6) ""

/-- Source lines 289-293: the single forward post-pass that sets each
field's offset to the running cumulative sum of lengths (inclusive of
the field's own length) and its color from the cyclic palette. -/
def assignPass : List Field → Nat → Nat → List Field
  | [], _, _ => []
  | f :: fs, off, i =>
    Field.mk f.name f.type f.length f.value f.parent f.nested (off + f.length) (paletteAt i)
      :: assignPass fs (off + f.length) (i + 1)

/-- Source lines 157-295: `create_fields()` as called at the top level
(`subcon=None`, `namespace=None`, `nested=0`), i.e. the full recursive
walk followed by the offset/color pass.  The source also runs the pass
at every inner recursion level, but those inner offsets and colors are
overwritten by the outermost pass on the same (mutable) `Field`
objects, so only the outermost pass is observable. -/
def create_fields (parsed : Value) (subcons : List Schema) : Option (List Field) :=
  match walkList parsed subcons none 0 with
  | none => none
  | some (fs, _, _) => some (assignPass fs 0 0)

/-- Modelled from the spec: the boolean color toggle (specification
sections 1 and 6 treat it as an environment-flag collaborator external
to the core; the file under src/ has no such flag).  With the toggle on
this is exactly the source's pass; with it off every color tag is left
empty while names, types, lengths, values, parents, nesting and
offsets are produced identically. -/
def assignPassToggled (colorOn : Bool) : List Field → Nat → Nat → List Field
  | [], _, _ => []
  | f :: fs, off, i =>
    Field.mk f.name f.type f.length f.value f.parent f.nested (off + f.length)
        (if colorOn then paletteAt i else "")
      :: assignPassToggled colorOn fs (off + f.length) (i + 1)

/-- Modelled from the spec: `create_fields` with the external color
toggle threaded in; `colorOn = true` is the source behavior. -/
def create_fields_toggled (colorOn : Bool) (parsed : Value) (subcons : List Schema) :
    Option (List Field) :=
  match walkList parsed subcons none 0 with
  | none => none
  | some (fs, _, _) => some (assignPassToggled colorOn fs 0 0)

/-- Python truthiness of the `raw` argument (`Optional[bytes]`): `None`
and `b""` are falsy. -/
def rawFalsy : Option (List Nat) → Bool
  | none => true
  | some bs => bs.isEmpty

/-- Python truthiness of a decoded value: empty containers and lists,
zero integers and empty strings are falsy. -/
def Value.falsy : Value → Bool
  | .vInt n => n == 0
  | .vStr s => s == ""
  | .vEnum s _ => s == ""
  | .vList xs => xs.isEmpty
  | .vContainer es => es.isEmpty

/-- Python truthiness of the `parsed` argument. -/
def parsedFalsy : Option Value → Bool
  | none => true
  | some v => v.falsy

/-- The session state set up by `VisiStruct.__init__`. -/
structure Session where
  format : List Schema
  raw : Option (List Nat)
  parsed : Option Value
  fields : List Field

/-- Source lines 128-139: `VisiStruct.__init__`.  The constructor
raises (`none`) exactly when `not raw and not parsed` holds under
Python truthiness; otherwise it stores the arguments and an empty
field list. -/
def VisiStruct.init (format : List Schema) (raw : Option (List Nat))
    (parsed : Option Value) : Option Session :=
  if rawFalsy raw && parsedFalsy parsed then none
  else some (Session.mk format raw parsed [])

/-- Little-endian base-256 digits of `n`, exactly `w` bytes. -/
def natBytesLE : Nat → Nat → List Nat
  | 0, _ => []
  | w + 1, n => n % 256 :: natBytesLE w (n / 256)

/-- Modelled from the spec: the byte encoding of one number by the
external codec (`FormatField.build`).  The byte width is the
load-bearing part; the payload is the two's-complement base-256
rendering, reversed for big-endian order.  Float kinds occupy their
declared width; their bit payload is opaque to every claim. -/
def encodeNum (fmt : FmtStr) (n : Int) : List Nat :=
  let digits := natBytesLE fmt.code.width (Int.toNat (Int.emod n (2 ^ (8 * fmt.code.width))))
  match fmt.order with
  | .big => digits.reverse
  | .little => digits
  | .native => digits

/-- Modelled from the spec: encoding of the elements of an array of
numbers (each element occupies the primitive width). -/
def buildNums (fmt : FmtStr) : List Value → Option (List Nat)
  | [] => some []
  | .vInt n :: rest =>
    match buildNums fmt rest with
    | none => none
    | some bs => some (encodeNum fmt n ++ bs)
  | _ :: _ => none

/-!
Modelled from the spec: `build(schema, decoded_value) -> bytes`, the
external `construct` codec collaborator (specification sections 1 and
6), recursive over the same schema shapes.  `buildList` encodes the
subcons of one level against the decoded container `ctx` of that level
(values are resolved scope-relative, the way the codec evaluates
`this.<name>` references); `buildElems` encodes the successive element
containers of an array of structs.  An encoding failure
(`EncodingError`) is `none`.
-/
mutual

def buildList (ctx : Value) : List Schema → Option (List Nat)
  | [] => some []
  | sub :: rest =>
    match buildOne ctx sub with
    | none => none
    | some bs1 =>
      match buildList ctx rest with
      | none => none
      | some bs2 => some (bs1 ++ bs2)
termination_by subs => (sizeOf subs, 0)
decreasing_by all_goals simp_wf <;> omega

def buildOne (ctx : Value) : Schema → Option (List Nat)
  | .const _ lit => some lit
  | .number name fmt =>
    match ctx.getitem (.str name) with
    | some (.vInt n) => some (encodeNum fmt n)
    | _ => none
  | .enumNumber name fmt =>
    match ctx.getitem (.str name) with
    | some (.vInt n) => some (encodeNum fmt n)
    | some (.vEnum _ n) => some (encodeNum fmt n)
    | _ => none
  | .cstring name enc =>
    match ctx.getitem (.str name) with
    | some (.vStr s) => some (enc.encodeStr s ++ List.replicate enc.termWidth 0)
    | _ => none
  | .paddedString name size enc =>
    match ctx.getitem (.str name) with
    | some (.vStr s) =>
      if size < (enc.encodeStr s).length then none
      else some (enc.encodeStr s ++ List.replicate (size - (enc.encodeStr s).length) 0)
    | _ => none
  | .pascalString name enc =>
    match ctx.getitem (.str name) with
    | some (.vStr s) =>
      some (varIntBytes (enc.encodeStr s).length ++ enc.encodeStr s)
    | _ => none
  | .struct name subs =>
    match ctx.getitem (.str name) with
    | none => none
    | some c2 => buildList c2 subs
  | .arrayOfStruct name cf elem =>
    match ctx.getitem (.str cf) with
    | some (.vInt k) =>
      match ctx.getitem (.str name) with
      | some (.vList xs) =>
        if (xs.length : Int) = k then buildElems elem xs else none
      | _ => none
    | _ => none
  | .arrayOfNumber name cnt fmt =>
    match ctx.getitem (.str name) with
    | some (.vList xs) =>
      if xs.length = cnt then buildNums fmt xs else none
    | _ => none
termination_by sub => (sizeOf sub, 0)
decreasing_by all_goals simp_wf <;> omega

def buildElems (elem : List Schema) : List Value → Option (List Nat)
  | [] => some []
  | v :: rest =>
    match buildList v elem with
    | none => none
    | some bs1 =>
      match buildElems elem rest with
      | none => none
      | some bs2 => some (bs1 ++ bs2)
termination_by xs => (sizeOf elem, xs.length + 1)
decreasing_by all_goals simp_wf <;> omega

end

/-!
The side conditions under which `create_fields` computes the same byte
budget the codec encodes.  `create_fields` resolves every
value-dependent length (null-terminated and length-prefixed string
contents, dynamic array counts and element lists) through the top level
of the decoded value (`self.parsed[name]`, source lines 234, 242, 258),
while the codec resolves them in the enclosing scope `ctx`; the two
agree when the top-level lookup returns the scope value.  In addition
the source charges a constant 1 byte for every length prefix (line 242)
which matches the codec only when the encoded string is shorter than
128 bytes (a one-byte VarInt).  At the top level of the schema the
lookup conditions hold definitionally (`ctx` is the decoded value
itself).
-/
mutual

def ConsList (parsed ctx : Value) : List Schema → Prop
  | [] => True
  | sub :: rest => ConsOne parsed ctx sub ∧ ConsList parsed ctx rest
termination_by subs => (sizeOf subs, 0)
decreasing_by all_goals simp_wf <;> omega

def ConsOne (parsed ctx : Value) : Schema → Prop
  | .const _ _ => True
  | .number _ _ => True
  | .enumNumber _ _ => True
  | .cstring name _ => topGet parsed name = ctx.getitem (.str name)
  | .paddedString _ _ _ => True
  | .pascalString name enc =>
    topGet parsed name = ctx.getitem (.str name) ∧
    (∀ s, topGet parsed name = some (.vStr s) → (enc.encodeStr s).length < 128)
  | .struct name subs =>
    ∀ c2, ctx.getitem (.str name) = some c2 → ConsList parsed c2 subs
  | .arrayOfStruct name cf elem =>
    topGet parsed cf = ctx.getitem (.str cf) ∧
    topGet parsed name = ctx.getitem (.str name) ∧
    (∀ xs, ctx.getitem (.str name) = some (.vList xs) → ConsElems parsed xs elem)
  | .arrayOfNumber _ _ _ => True
termination_by sub => (sizeOf sub, 0)
decreasing_by all_goals simp_wf <;> omega

def ConsElems (parsed : Value) (xs : List Value) (elem : List Schema) : Prop :=
  match xs with
  | [] => True
  | v :: rest => ConsList parsed v elem ∧ ConsElems parsed rest elem
termination_by (sizeOf elem, xs.length + 1)
decreasing_by all_goals simp_wf <;> omega

end

/-- Total length of the emitted fields. -/
def sumLen (fs : List Field) : Nat :=
  (fs.map Field.length).sum

/-- Hex digit character for a value below 16 (digits then lowercase
letters, as `bytes.hex()` renders them). -/
def hexDigit (n : Nat) : Char :=
  if n < 10 then Char.ofNat (48 + n) else Char.ofNat (87 + n)

/-- Two-character hex rendering of one byte of `self.raw.hex()`. -/
def byteHex (b : Nat) : String :=
  String.mk [hexDigit (b % 256 / 16), hexDigit (b % 16)]

/-- One rendered byte cell of the hex dump: the text `" xx "` and the
style tag applied to it. -/
structure Cell where
  hex : String
  color : String

/-!
Source lines 317-330: the cursor loop of `chunk_bytes`.  `units` holds
the two-character groups of the (possibly `".."`-padded) hex string,
`n` is the character position, `field` the current field and `fields`
the not-yet-consumed tail of the iterator.  When the cursor passes the
current field's offset the iterator is advanced once; on
`StopIteration` the current field is simply kept (`except
StopIteration: pass`).  A cell is styled with the current field's
color whenever it lies before the pad (`n < padded`).
-/

/-- Source lines 320-324: advance the field iterator once when the
cursor has passed the current field's offset; on exhaustion keep the
current field. -/
def advanceField (n : Nat) (field : Field) (fields : List Field) : Field × List Field :=
  if n / 2 > field.offset - 1 ∧ 0 < n then
    match fields with
    | [] => (field, [])
    | g :: gs => (g, gs)
  else (field, fields)

def chunkLoop : List String → Nat → Field → List Field → Nat → List Cell
  | [], _, _, _, _ => []
  | u :: rest, n, field, fields, padded =>
    Cell.mk (" " ++ u ++ " ")
        (if n < padded then (advanceField n field fields).1.color else "")
      :: chunkLoop rest (n + 2) (advanceField n field fields).1
          (advanceField n field fields).2 padded

/-- Source line 331: `out[i : i + chunk_size]` slices (for a positive
`chunk_size` this is the row grouping of the cell list). -/
def chunksOf (cs : Nat) : List Cell → List (List Cell)
  | [] => []
  | x :: xs => (x :: xs).take cs :: chunksOf cs (xs.drop (cs - 1))
termination_by l => l.length
decreasing_by
  simp_wf
  exact Nat.lt_succ_of_le (List.length_drop (cs - 1) xs ▸ Nat.sub_le xs.length (cs - 1))

/-- Source lines 297-331: `chunk_bytes`.  It raises (`none`) when the
session's raw bytes are absent or empty (`if not self.raw`), when the
field sequence is empty (the initial `next(fields)` escapes the
`try`), and when `chunk_size` is zero (`len(self.raw) // chunk_size`
raises `ZeroDivisionError`).  Otherwise the hex string is padded with
`".."` groups to a multiple of `chunk_size`, walked by `chunkLoop`,
and sliced into rows. -/
def chunk_bytes (raw : Option (List Nat)) (fields : List Field) (chunk_size : Nat) :
    Option (List (List Cell)) :=
  match raw with
  | none => none
  | some bytes =>
    if bytes.isEmpty then none
    else
      match fields with
      | [] => none
      | f :: fs =>
        if chunk_size = 0 then none
        else
          let pad : Nat :=
            if bytes.length % chunk_size = 0 then 0
            else (bytes.length / chunk_size + 1) * chunk_size - bytes.length
          let units := bytes.map byteHex ++ List.replicate pad ".."
          let padded := 2 * bytes.length
          some (chunksOf chunk_size (chunkLoop units 0 f fs padded))

/-- Refinement reference for the primitive-type registry, following the
claim's words: the canonical type name that correctly encodes the
signedness, the bit width and the byte order of the element kind
(integers `Int{bits}{u|s}{b|l|n}`, floats `Float{bits}{b|l|n}`). -/
def canonicalNumberName (f : FmtStr) : String :=
  let suffix : String :=
    match f.order with
    | .big => "b"
    | .little => "l"
    | .native => "n"
  let base : String :=
    match f.code with
    | .B => "Int8u"
    | .b => "Int8s"
    | .H => "Int16u"
    | .h => "Int16s"
    | .L => "Int32u"
    | .l => "Int32s"
    | .Q => "Int64u"
    | .q => "Int64s"
    | .e => "Float16"
    | .f => "Float32"
    | .d => "Float64"
  base ++ suffix

/-! Helper lemmas. -/

theorem natBytesLE_length : ∀ (width value : Nat), (natBytesLE width value).length = width
  | 0, _ => by simp [natBytesLE]
  | width + 1, value => by
    simp [natBytesLE, natBytesLE_length width (value / 256)]

theorem encodeNum_length (fmt : FmtStr) (n : Int) :
    (encodeNum fmt n).length = fmt.code.width := by
  cases fmt with
  | mk o c => cases o <;> simp [encodeNum, natBytesLE_length]

theorem varIntBytes_small (n : Nat) (h : n < 128) : varIntBytes n = [n] := by
  rw [varIntBytes]
  simp [h]

theorem buildNums_length (fmt : FmtStr) (xs : List Value) (bs : List Nat)
    (h : buildNums fmt xs = some bs) : bs.length = xs.length * fmt.code.width := by
  induction xs generalizing bs with
  | nil => simp [buildNums] at h; simp [← h]
  | cons v rest ih =>
    cases v with
    | vInt n =>
      simp only [buildNums] at h
      cases hrec : buildNums fmt rest with
      | none => rw [hrec] at h; exact absurd h (by simp)
      | some bs2 =>
        rw [hrec] at h
        simp at h
        subst h
        simp [encodeNum_length, ih bs2 hrec, Nat.succ_mul, Nat.add_comm]
    | vStr s => simp [buildNums] at h
    | vEnum s n => simp [buildNums] at h
    | vList l => simp [buildNums] at h
    | vContainer l => simp [buildNums] at h

theorem sumLen_nil : sumLen [] = 0 := rfl

theorem sumLen_cons (f : Field) (fs : List Field) :
    sumLen (f :: fs) = f.length + sumLen fs := by
  simp [sumLen]

theorem sumLen_append (fs gs : List Field) :
    sumLen (fs ++ gs) = sumLen fs + sumLen gs := by
  simp [sumLen]

/-!
The central length invariant: under the consistency side conditions the
walk of `create_fields` budgets exactly the bytes the codec encodes,
level by level.  The three lemmas mirror the mutual recursion of the
walk and of the modelled `build`.
-/
mutual

theorem walkList_sumLen (parsed ctx : Value) (subs : List Schema) (ns : Option (List Step))
    (l : Nat) (fs : List Field) (ns2 : Option (List Step)) (l2 : Nat) (bs : List Nat)
    (hw : walkList parsed subs ns l = some (fs, ns2, l2))
    (hb : buildList ctx subs = some bs)
    (hc : ConsList parsed ctx subs) : sumLen fs = bs.length := by
  match subs with
  | [] =>
    simp only [walkList] at hw
    simp only [buildList] at hb
    simp at hw hb
    obtain ⟨h1, -, -⟩ := hw
    subst h1
    subst hb
    rfl
  | sub :: rest =>
    simp only [walkList] at hw
    simp only [buildList] at hb
    simp only [ConsList] at hc
    split at hw
    · simp at hw
    rename_i fs1 ns1 l1 h1
    split at hw
    · simp at hw
    rename_i fs2 ns2b l2b h2
    simp at hw
    obtain ⟨hfs, -, -⟩ := hw
    subst hfs
    split at hb
    · simp at hb
    rename_i bs1 h3
    split at hb
    · simp at hb
    rename_i bs2 h4
    simp at hb
    subst hb
    rw [sumLen_append]
    rw [walkOne_sumLen parsed ctx sub ns l fs1 ns1 l1 bs1 h1 h3 hc.1,
      walkList_sumLen parsed ctx rest ns1 l1 fs2 ns2b l2b bs2 h2 h4 hc.2]
    simp
termination_by (sizeOf subs, 0)
decreasing_by all_goals simp_wf <;> omega

theorem walkOne_sumLen (parsed ctx : Value) (sub : Schema) (ns : Option (List Step))
    (l : Nat) (fs : List Field) (ns2 : Option (List Step)) (l2 : Nat) (bs : List Nat)
    (hw : walkOne parsed sub ns l = some (fs, ns2, l2))
    (hb : buildOne ctx sub = some bs)
    (hc : ConsOne parsed ctx sub) : sumLen fs = bs.length := by
  match sub with
  | .const name lit =>
    simp only [walkOne] at hw
    simp only [buildOne] at hb
    split at hw
    · simp at hw
    simp at hw hb
    obtain ⟨hfs, -, -⟩ := hw
    subst hfs
    subst hb
    simp [sumLen]
  | .number name fmt =>
    simp only [walkOne] at hw
    simp only [buildOne] at hb
    split at hw
    · simp at hw
    split at hw
    · simp at hw
    simp at hw
    obtain ⟨hfs, -, -⟩ := hw
    subst hfs
    split at hb
    · simp at hb
      subst hb
      simp [sumLen, encodeNum_length]
    · simp at hb
  | .enumNumber name fmt =>
    simp only [walkOne] at hw
    simp only [buildOne] at hb
    split at hw
    · simp at hw
    split at hw
    · simp at hw
    simp at hw
    obtain ⟨hfs, -, -⟩ := hw
    subst hfs
    split at hb
    · simp at hb
      subst hb
      simp [sumLen, encodeNum_length]
    · simp at hb
      subst hb
      simp [sumLen, encodeNum_length]
    · simp at hb
  | .cstring name enc =>
    simp only [walkOne] at hw
    simp only [buildOne] at hb
    simp only [ConsOne] at hc
    split at hw
    · simp at hw
    rename_i v par hr
    split at hw
    · rename_i s htop
      simp at hw
      obtain ⟨hfs, -, -⟩ := hw
      subst hfs
      split at hb
      · rename_i s2 hcv
        simp at hb
        subst hb
        rw [htop, hcv] at hc
        simp at hc
        subst hc
        simp [sumLen]
      · simp at hb
    · simp at hw
  | .paddedString name size enc =>
    simp only [walkOne] at hw
    simp only [buildOne] at hb
    split at hw
    · simp at hw
    simp at hw
    obtain ⟨hfs, -, -⟩ := hw
    subst hfs
    split at hb
    · rename_i s2 hcv
      split at hb
      · simp at hb
      · rename_i hle
        simp at hb
        subst hb
        simp [sumLen]
        omega
    · simp at hb
  | .pascalString name enc =>
    simp only [walkOne] at hw
    simp only [buildOne] at hb
    simp only [ConsOne] at hc
    obtain ⟨hceq, hsmall⟩ := hc
    split at hw
    · simp at hw
    rename_i v par hr
    split at hw
    · rename_i s htop
      simp at hw
      obtain ⟨hfs, -, -⟩ := hw
      subst hfs
      split at hb
      · rename_i s2 hcv
        simp at hb
        subst hb
        rw [htop, hcv] at hceq
        simp at hceq
        subst hceq
        have hs := hsmall s htop
        rw [varIntBytes_small (enc.encodeStr s).length hs]
        simp [sumLen]
        try omega
      · simp at hb
    · simp at hw
  | .struct name subs =>
    simp only [walkOne] at hw
    simp only [buildOne] at hb
    simp only [ConsOne] at hc
    split at hw
    · simp at hw
    split at hw
    · simp at hw
    rename_i fs0 nsx lx hwl
    simp at hw
    obtain ⟨hfs, -, -⟩ := hw
    subst hfs
    split at hb
    · simp at hb
    rename_i c2 hcv
    exact walkList_sumLen parsed c2 subs (some (pushName ns name)) (l + 1)
      fs0 nsx lx bs hwl hb (hc c2 hcv)
  | .arrayOfStruct name cf elem =>
    simp only [walkOne] at hw
    simp only [buildOne] at hb
    simp only [ConsOne] at hc
    obtain ⟨hcf, hname, helems⟩ := hc
    split at hw
    · simp at hw
    rename_i v par hr
    split at hw
    · rename_i k htop
      split at hw
      · simp at hw
      rename_i fs0 hidx
      simp at hw
      obtain ⟨hfs, -, -⟩ := hw
      subst hfs
      split at hb
      · rename_i k2 hccf
        split at hb
        · rename_i xs hcn
          split at hb
          case isTrue hlen =>
            rw [htop, hccf] at hcf
            simp at hcf
            have hk : k.toNat = xs.length := by omega
            rw [hk] at hidx
            exact walkIdx_sumLen parsed name elem xs 0 (l + 1) fs0 bs hidx hb
              (helems xs hcn)
          case isFalse => simp at hb
        · simp at hb
      · simp at hb
    · simp at hw
  | .arrayOfNumber name cnt fmt =>
    simp only [walkOne] at hw
    simp only [buildOne] at hb
    split at hw
    · simp at hw
    split at hw
    · simp at hw
    simp at hw
    obtain ⟨hfs, -, -⟩ := hw
    subst hfs
    split at hb
    · rename_i xs hcv
      split at hb
      case isTrue hlen =>
        rw [buildNums_length fmt xs bs hb, hlen]
        simp [sumLen]
      case isFalse => simp at hb
    · simp at hb
termination_by (sizeOf sub, 0)
decreasing_by all_goals simp_wf <;> omega

theorem walkIdx_sumLen (parsed : Value) (name : String) (elem : List Schema)
    (xs : List Value) (i l : Nat) (fs : List Field) (bs : List Nat)
    (hw : walkIdx parsed name elem xs.length i l = some fs)
    (hb : buildElems elem xs = some bs)
    (hc : ConsElems parsed xs elem) : sumLen fs = bs.length := by
  match xs with
  | [] =>
    simp only [List.length_nil, walkIdx] at hw
    simp only [buildElems] at hb
    simp at hw hb
    subst hw
    subst hb
    rfl
  | v :: rest =>
    simp only [List.length_cons, walkIdx] at hw
    simp only [buildElems] at hb
    simp only [ConsElems] at hc
    split at hw
    · simp at hw
    rename_i fs1 nsx lx h1
    split at hw
    · simp at hw
    rename_i fs2 h2
    simp at hw
    subst hw
    split at hb
    · simp at hb
    rename_i bs1 h3
    split at hb
    · simp at hb
    rename_i bs2 h4
    simp at hb
    subst hb
    rw [sumLen_append]
    rw [walkList_sumLen parsed v elem (some [Step.str name, Step.idx i]) l
        fs1 nsx lx bs1 h1 h3 hc.1,
      walkIdx_sumLen parsed name elem rest (i + 1) l fs2 bs2 h2 h4 hc.2]
    simp
termination_by (sizeOf elem, xs.length + 1)
decreasing_by all_goals simp_wf <;> omega

end

/-! Facts about the offset/color post-pass. -/

theorem assignPass_map_length (fs : List Field) (off i : Nat) :
    (assignPass fs off i).map Field.length = fs.map Field.length := by
  induction fs generalizing off i with
  | nil => simp [assignPass]
  | cons f rest ih => simp [assignPass, ih]

theorem assignPass_sumLen (fs : List Field) (off i : Nat) :
    sumLen (assignPass fs off i) = sumLen fs := by
  simp [sumLen, assignPass_map_length]

theorem assignPass_length (fs : List Field) (off i : Nat) :
    (assignPass fs off i).length = fs.length := by
  induction fs generalizing off i with
  | nil => simp [assignPass]
  | cons f rest ih => simp [assignPass, ih]

theorem assignPass_get? (fs : List Field) (off i j : Nat) :
    (assignPass fs off i).get? j = (fs.get? j).map (fun f =>
      Field.mk f.name f.type f.length f.value f.parent f.nested
        (off + sumLen (fs.take (j + 1))) (paletteAt (i + j))) := by
  induction fs generalizing off i j with
  | nil => simp [assignPass]
  | cons f rest ih =>
    cases j with
    | zero => simp [assignPass, sumLen]
    | succ j2 =>
      simp only [assignPass, List.get?]
      rw [ih (off + f.length) (i + 1) j2]
      cases hres : rest.get? j2 with
      | none => simp [hres]
      | some g =>
        simp [hres, sumLen_cons]
        constructor
        · omega
        · have : i + 1 + j2 = i + (j2 + 1) := by omega
          rw [this]

theorem assignPass_getLast? (fs : List Field) (off i : Nat) (h : fs ≠ []) :
    ((assignPass fs off i).getLast?).map Field.offset = some (off + sumLen fs) := by
  induction fs generalizing off i with
  | nil => simp at h
  | cons f rest ih =>
    cases rest with
    | nil => simp [assignPass, sumLen_cons, sumLen_nil]
    | cons g rest2 =>
      have step : assignPass (f :: g :: rest2) off i =
          Field.mk f.name f.type f.length f.value f.parent f.nested
              (off + f.length) (paletteAt i)
            :: assignPass (g :: rest2) (off + f.length) (i + 1) := rfl
      have step2 : assignPass (g :: rest2) (off + f.length) (i + 1) =
          Field.mk g.name g.type g.length g.value g.parent g.nested
              (off + f.length + g.length) (paletteAt (i + 1))
            :: assignPass rest2 (off + f.length + g.length) (i + 2) := rfl
      rw [step, step2, List.getLast?_cons_cons, ← step2,
        ih (off + f.length) (i + 1) (by simp)]
      simp [sumLen_cons]
      omega

/-- The all-colors-erased projection of a field (spec section 6: with
color disabled all tags are empty/neutral while everything else is
unchanged). -/
def eraseColor (f : Field) : Field :=
  Field.mk f.name f.type f.length f.value f.parent f.nested f.offset ""

theorem assignPassToggled_true (fs : List Field) (off i : Nat) :
    assignPassToggled true fs off i = assignPass fs off i := by
  induction fs generalizing off i with
  | nil => simp [assignPass, assignPassToggled]
  | cons f rest ih => simp [assignPass, assignPassToggled, ih]

theorem assignPassToggled_false (fs : List Field) (off i : Nat) :
    assignPassToggled false fs off i = (assignPass fs off i).map eraseColor := by
  induction fs generalizing off i with
  | nil => simp [assignPass, assignPassToggled]
  | cons f rest ih => simp [assignPass, assignPassToggled, eraseColor, ih]

theorem sumLen_take_le (fs : List Field) (a b : Nat) (h : a ≤ b) :
    sumLen (fs.take a) ≤ sumLen (fs.take b) := by
  have h1 : fs.take a = (fs.take b).take a := by
    rw [List.take_take, Nat.min_eq_left h]
  calc sumLen (fs.take a) = sumLen ((fs.take b).take a) := by rw [h1]
    _ ≤ sumLen ((fs.take b).take a) + sumLen ((fs.take b).drop a) := Nat.le_add_right _ _
    _ = sumLen (fs.take b) := by rw [← sumLen_append, List.take_append_drop]

theorem sumLen_take_succ (fs : List Field) (j : Nat) (h : j < fs.length) :
    sumLen (fs.take (j + 1)) = sumLen (fs.take j) + (fs.get ⟨j, h⟩).length := by
  induction fs generalizing j with
  | nil => simp at h
  | cons f rest ih =>
    cases j with
    | zero => simp [sumLen]
    | succ j2 =>
      simp only [List.take_succ_cons, List.get_cons_succ, sumLen_cons]
      rw [ih j2 (by simpa using h)]
      omega

theorem assignPass_sumLen_take (fs : List Field) (off i m : Nat) :
    sumLen ((assignPass fs off i).take m) = sumLen (fs.take m) := by
  simp only [sumLen, List.map_take, assignPass_map_length]

/-- Single-byte encodings use one byte per character. -/
theorem encodeStr_ascii_length (s : String) :
    (Enc.ascii.encodeStr s).length = s.data.length := by
  simp [Enc.encodeStr]

/-- The VarInt encoding of 128 is two bytes wide. -/
theorem varIntBytes_128 : varIntBytes 128 = [128, 1] := by
  rw [varIntBytes]
  norm_num
  rw [varIntBytes]
  norm_num

/-- A 128-character string, used to exhibit the one-byte length-prefix
assumption of the source (line 242, `+ 1  # always 1?`). -/
def exStr128 : String := String.mk (List.replicate 128 'a')

/-- A decoded value holding `exStr128` under the name "s". -/
def exParsed128 : Value := Value.vContainer [("s", .vStr exStr128)]

/-- A schema consisting of one length-prefixed string. -/
def exSchema128 : List Schema := [.pascalString "s" .ascii]

theorem exStr128_enc_length : (Enc.ascii.encodeStr exStr128).length = 128 := by
  simp [encodeStr_ascii_length, exStr128]

/-! Claim theorems. -/

/-- Claim C1, counterexample: for the schema holding one length-prefixed
string whose encoded value is 128 bytes long, the last (only) emitted
field's offset is 129 while the encoded buffer built by the codec is
130 bytes long (a two-byte VarInt prefix), so the offset-sum invariant
fails as stated. -/
theorem C1_counterexample :
    (create_fields exParsed128 exSchema128).map (List.map Field.offset) = some [129] ∧
    (buildList exParsed128 exSchema128).map List.length = some 130 ∧
    (129 : Nat) ≠ 130 := by
  refine ⟨?_, ?_, by norm_num⟩
  · simp [create_fields, walkList, walkOne, resolveValue, topGet, Value.getitem,
      List.lookup, unwrapEnum, assignPass, paletteAt, PALETTE, exParsed128, exSchema128,
      exStr128_enc_length]
  · simp [buildList, buildOne, Value.getitem, List.lookup, exParsed128, exSchema128,
      exStr128_enc_length, varIntBytes_128]

/-- Claim C1 (amended): for every schema/value pair accepted by
`create_fields` in which every length-prefixed string's encoded value
fits a one-byte VarInt prefix (below 128 bytes) and every
value-dependent lookup (null-terminated/length-prefixed string names,
dynamic array count and element-list names) resolves to the same value
at the top level of the decoded value as in its enclosing scope (the
`ConsList` side conditions, which hold definitionally for top-level
fields), the sum of all emitted field lengths equals the length of the
encoded buffer, and the last field's offset equals that length. -/
theorem C1_offset_sum (parsed : Value) (subs : List Schema) (fs : List Field) (bs : List Nat)
    (hw : create_fields parsed subs = some fs)
    (hb : buildList parsed subs = some bs)
    (hc : ConsList parsed parsed subs) :
    sumLen fs = bs.length ∧
    (fs ≠ [] → (fs.getLast?).map Field.offset = some bs.length) := by
  simp only [create_fields] at hw
  split at hw
  · simp at hw
  rename_i fs0 ns2 l2 hwalk
  simp at hw
  subst hw
  have hsum : sumLen fs0 = bs.length :=
    walkList_sumLen parsed parsed subs none 0 fs0 ns2 l2 bs hwalk hb hc
  constructor
  · rw [assignPass_sumLen, hsum]
  · intro hne
    have hne0 : fs0 ≠ [] := by
      intro h0
      rw [h0] at hne
      simp [assignPass] at hne
    rw [assignPass_getLast? fs0 0 0 hne0]
    simp [hsum]

/-- Witness for the amended C1 at a concrete schema with a nested
struct: the field lengths are 4 and 2, the build produces 6 bytes, and
the last offset is 6. -/
theorem C1_offset_sum_witness :
    sumLen [Field.mk "x" "Int32ul" 4 (some (.vInt 5)) "" 0 4 "cyan",
      Field.mk "y" "Int16ul" 2 (some (.vInt 2)) "st" 1 6 "green"] = 6 ∧
    ([Field.mk "x" "Int32ul" 4 (some (.vInt 5)) "" 0 4 "cyan",
      Field.mk "y" "Int16ul" 2 (some (.vInt 2)) "st" 1 6 "green"] ≠ ([] : List Field) →
      ([Field.mk "x" "Int32ul" 4 (some (.vInt 5)) "" 0 4 "cyan",
        Field.mk "y" "Int16ul" 2 (some (.vInt 2)) "st" 1 6 "green"].getLast?).map
          Field.offset = some 6) := by
  have h := C1_offset_sum
    (Value.vContainer [("x", .vInt 5), ("st", Value.vContainer [("y", .vInt 2)])])
    [Schema.number "x" (FmtStr.mk .little .L),
     Schema.struct "st" [Schema.number "y" (FmtStr.mk .little .H)]]
    [Field.mk "x" "Int32ul" 4 (some (.vInt 5)) "" 0 4 "cyan",
      Field.mk "y" "Int16ul" 2 (some (.vInt 2)) "st" 1 6 "green"]
    (encodeNum (FmtStr.mk .little .L) 5 ++ encodeNum (FmtStr.mk .little .H) 2)
    (by simp [create_fields, walkList, walkOne, resolveValue, topGet, Value.getitem,
      List.lookup, unwrapEnum, assignPass, paletteAt, PALETTE, pushName,
      reduceGetitem, lastString, containerTransform, NUMBER_TYPES, FmtStr.s,
      ByteOrder.ch, NumCode.ch, NumCode.width])
    (by simp [buildList, buildOne, Value.getitem, List.lookup])
    (by simp [ConsList, ConsOne, Value.getitem, List.lookup])
  simpa [encodeNum_length, NumCode.width] using h

/-- Claim C2: every field emitted by `create_fields` has as offset the
sum of the lengths of fields 0 through its own position inclusive
(offset = end of field); offsets are monotonically non-decreasing in
emission order and strictly increasing into any field of positive
length. -/
theorem C2_offsets_cumulative (parsed : Value) (subs : List Schema) (fs : List Field)
    (hw : create_fields parsed subs = some fs) :
    (∀ j (h : j < fs.length), (fs.get ⟨j, h⟩).offset = sumLen (fs.take (j + 1))) ∧
    (∀ j k (hj : j < fs.length) (hk : k < fs.length), j ≤ k →
      (fs.get ⟨j, hj⟩).offset ≤ (fs.get ⟨k, hk⟩).offset) ∧
    (∀ j k (hj : j < fs.length) (hk : k < fs.length), j < k →
      0 < (fs.get ⟨k, hk⟩).length → (fs.get ⟨j, hj⟩).offset < (fs.get ⟨k, hk⟩).offset) := by
  simp only [create_fields] at hw
  split at hw
  · simp at hw
  rename_i fs0 ns2 l2 hwalk
  simp at hw
  subst hw
  have hoff : ∀ j (h : j < (assignPass fs0 0 0).length),
      ((assignPass fs0 0 0).get ⟨j, h⟩).offset =
        sumLen ((assignPass fs0 0 0).take (j + 1)) := by
    intro j h
    have hlen : j < fs0.length := by
      rw [← assignPass_length fs0 0 0]
      exact h
    have hg := assignPass_get? fs0 0 0 j
    rw [List.get?_eq_get h, List.get?_eq_get hlen] at hg
    have hg2 := Option.some.inj hg
    rw [hg2]
    simp [assignPass_sumLen_take]
  refine ⟨hoff, ?_, ?_⟩
  · intro j k hj hk hle
    rw [hoff j hj, hoff k hk]
    exact sumLen_take_le _ (j + 1) (k + 1) (by omega)
  · intro j k hj hk hlt hpos
    rw [hoff j hj, hoff k hk]
    have hstep := sumLen_take_succ (assignPass fs0 0 0) k hk
    have hmono := sumLen_take_le (assignPass fs0 0 0) (j + 1) k (by omega)
    omega

/-- Witness for C2 at a concrete two-field schema. -/
theorem C2_offsets_cumulative_witness :
    ([Field.mk "x" "Int32ul" 4 (some (.vInt 5)) "" 0 4 "cyan",
        Field.mk "y" "Int16ul" 2 (some (.vInt 7)) "" 0 6 "green"].get
      ⟨1, by norm_num⟩).offset =
      sumLen ([Field.mk "x" "Int32ul" 4 (some (.vInt 5)) "" 0 4 "cyan",
        Field.mk "y" "Int16ul" 2 (some (.vInt 7)) "" 0 6 "green"].take 2) := by
  have h := C2_offsets_cumulative
    (Value.vContainer [("x", .vInt 5), ("y", .vInt 7)])
    [Schema.number "x" (FmtStr.mk .little .L), Schema.number "y" (FmtStr.mk .little .H)]
    [Field.mk "x" "Int32ul" 4 (some (.vInt 5)) "" 0 4 "cyan",
      Field.mk "y" "Int16ul" 2 (some (.vInt 7)) "" 0 6 "green"]
    (by simp [create_fields, walkList, walkOne, resolveValue, topGet, Value.getitem,
      List.lookup, unwrapEnum, assignPass, paletteAt, PALETTE, NUMBER_TYPES, FmtStr.s,
      ByteOrder.ch, NumCode.ch, NumCode.width])
  exact h.1 1 (by norm_num)

/-- Claim C3, counterexample: for a length-prefixed string whose
encoded value is 128 bytes long the source computes field length 129
(encoded length plus a constant 1), but the width of the actual VarInt
length prefix is 2, so "encoded length plus the width of the length
prefix" would be 130. -/
theorem C3_counterexample :
    (walkOne exParsed128 (Schema.pascalString "s" .ascii) none 0).map
        (fun t => t.1.map Field.length) = some [129] ∧
    (varIntBytes ((Enc.ascii.encodeStr exStr128).length)).length = 2 ∧
    (Enc.ascii.encodeStr exStr128).length +
      (varIntBytes ((Enc.ascii.encodeStr exStr128).length)).length = 130 ∧
    (129 : Nat) ≠ 130 := by
  refine ⟨?_, ?_, ?_, by norm_num⟩
  · simp [walkOne, resolveValue, topGet, Value.getitem, List.lookup, unwrapEnum,
      exParsed128, exStr128_enc_length]
  · rw [exStr128_enc_length, varIntBytes_128]
    rfl
  · rw [exStr128_enc_length, varIntBytes_128]
    simp

/-- Claim C3 (amended): the computed field length of a string field is:
null-terminated, the encoded-byte length of the top-level decoded
string plus the terminator width of its encoding; fixed-size, the
statically declared size; length-prefixed, the encoded-byte length
plus a constant one byte (the source hardcodes a one-byte prefix,
which matches the real prefix width only below 128 encoded bytes). -/
theorem C3_string_lengths :
    (∀ parsed name enc ns l out,
      walkOne parsed (Schema.cstring name enc) ns l = some out →
      ∃ s, topGet parsed name = some (.vStr s) ∧
        out.1.map Field.length = [(enc.encodeStr s).length + enc.termWidth]) ∧
    (∀ parsed name size enc ns l out,
      walkOne parsed (Schema.paddedString name size enc) ns l = some out →
      out.1.map Field.length = [size]) ∧
    (∀ parsed name enc ns l out,
      walkOne parsed (Schema.pascalString name enc) ns l = some out →
      ∃ s, topGet parsed name = some (.vStr s) ∧
        out.1.map Field.length = [(enc.encodeStr s).length + 1]) := by
  refine ⟨?_, ?_, ?_⟩
  · intro parsed name enc ns l out hw
    simp only [walkOne] at hw
    split at hw
    · simp at hw
    split at hw
    · rename_i s htop
      refine ⟨s, htop, ?_⟩
      simp at hw
      subst hw
      simp
    · simp at hw
  · intro parsed name size enc ns l out hw
    simp only [walkOne] at hw
    split at hw
    · simp at hw
    simp at hw
    subst hw
    simp
  · intro parsed name enc ns l out hw
    simp only [walkOne] at hw
    split at hw
    · simp at hw
    split at hw
    · rename_i s htop
      refine ⟨s, htop, ?_⟩
      simp at hw
      subst hw
      simp
    · simp at hw

/-- Witness for the amended C3 at a concrete null-terminated string. -/
theorem C3_string_lengths_witness :
    ∃ s, topGet (Value.vContainer [("t", .vStr "ab")]) "t" = some (.vStr s) ∧
      ([Field.mk "t" "CString" 3 (some (.vStr "ab")) "" 0 0 ""],
        (none : Option (List Step)), 0).1.map Field.length =
        [(Enc.ascii.encodeStr s).length + Enc.ascii.termWidth] :=
  C3_string_lengths.1 (Value.vContainer [("t", .vStr "ab")]) "t" .ascii none 0
    ([Field.mk "t" "CString" 3 (some (.vStr "ab")) "" 0 0 ""], none, 0)
    (by simp [walkOne, resolveValue, topGet, Value.getitem, List.lookup, unwrapEnum,
      Enc.encodeStr, Enc.termWidth])

/-- Claim C9: for null-terminated and length-prefixed string fields the
byte length is computed from the value found under the field's bare
name at the TOP LEVEL of the decoded value, and never from the
namespace-resolved value: the computed length list only depends on
`topGet parsed name` (first two conjuncts), and a successful walk
requires a string entry under that name at top level (last two
conjuncts). -/
theorem C9_string_top_level :
    (∀ p1 p2 name enc ns1 ns2 l1 l2 out1 out2,
      walkOne p1 (Schema.cstring name enc) ns1 l1 = some out1 →
      walkOne p2 (Schema.cstring name enc) ns2 l2 = some out2 →
      topGet p1 name = topGet p2 name →
      out1.1.map Field.length = out2.1.map Field.length) ∧
    (∀ p1 p2 name enc ns1 ns2 l1 l2 out1 out2,
      walkOne p1 (Schema.pascalString name enc) ns1 l1 = some out1 →
      walkOne p2 (Schema.pascalString name enc) ns2 l2 = some out2 →
      topGet p1 name = topGet p2 name →
      out1.1.map Field.length = out2.1.map Field.length) ∧
    (∀ parsed name enc ns l out,
      walkOne parsed (Schema.cstring name enc) ns l = some out →
      ∃ s, topGet parsed name = some (.vStr s)) ∧
    (∀ parsed name enc ns l out,
      walkOne parsed (Schema.pascalString name enc) ns l = some out →
      ∃ s, topGet parsed name = some (.vStr s)) := by
  have hc : ∀ parsed name enc ns l out,
      walkOne parsed (Schema.cstring name enc) ns l = some out →
      ∃ s, topGet parsed name = some (.vStr s) ∧
        out.1.map Field.length = [(enc.encodeStr s).length + enc.termWidth] := by
    intro parsed name enc ns l out hw
    simp only [walkOne] at hw
    split at hw
    · simp at hw
    split at hw
    · rename_i s htop
      refine ⟨s, htop, ?_⟩
      simp at hw
      subst hw
      simp
    · simp at hw
  have hp : ∀ parsed name enc ns l out,
      walkOne parsed (Schema.pascalString name enc) ns l = some out →
      ∃ s, topGet parsed name = some (.vStr s) ∧
        out.1.map Field.length = [(enc.encodeStr s).length + 1] := by
    intro parsed name enc ns l out hw
    simp only [walkOne] at hw
    split at hw
    · simp at hw
    split at hw
    · rename_i s htop
      refine ⟨s, htop, ?_⟩
      simp at hw
      subst hw
      simp
    · simp at hw
  refine ⟨?_, ?_, ?_, ?_⟩
  · intro p1 p2 name enc ns1 ns2 l1 l2 out1 out2 h1 h2 heq
    obtain ⟨s1, ht1, hl1⟩ := hc p1 name enc ns1 l1 out1 h1
    obtain ⟨s2, ht2, hl2⟩ := hc p2 name enc ns2 l2 out2 h2
    rw [heq, ht2] at ht1
    simp at ht1
    rw [hl1, hl2, ht1]
  · intro p1 p2 name enc ns1 ns2 l1 l2 out1 out2 h1 h2 heq
    obtain ⟨s1, ht1, hl1⟩ := hp p1 name enc ns1 l1 out1 h1
    obtain ⟨s2, ht2, hl2⟩ := hp p2 name enc ns2 l2 out2 h2
    rw [heq, ht2] at ht1
    simp at ht1
    rw [hl1, hl2, ht1]
  · intro parsed name enc ns l out hw
    obtain ⟨s, ht, -⟩ := hc parsed name enc ns l out hw
    exact ⟨s, ht⟩
  · intro parsed name enc ns l out hw
    obtain ⟨s, ht, -⟩ := hp parsed name enc ns l out hw
    exact ⟨s, ht⟩

/-- Witness for C9: a null-terminated string nested under "outer"
resolves its VALUE to the inner string "wxyz" but its LENGTH from the
top-level entry "ab" (length 2 + 1 = 3, not 4 + 1 = 5). -/
theorem C9_string_top_level_witness :
    ∃ s, topGet (Value.vContainer
        [("s", .vStr "ab"),
          ("outer", Value.vContainer [("s", .vStr "wxyz")])]) "s" = some (.vStr s) := by
  refine C9_string_top_level.2.2.1 (Value.vContainer
      [("s", .vStr "ab"), ("outer", Value.vContainer [("s", .vStr "wxyz")])])
    "s" .ascii (some [Step.str "outer"]) 1
    ([Field.mk "s" "CString" 3 (some (.vStr "wxyz")) "outer" 1 0 ""],
      some [Step.str "outer"], 1) ?_
  simp [walkOne, resolveValue, topGet, Value.getitem, List.lookup, unwrapEnum,
    reduceGetitem, lastString, containerTransform, Enc.encodeStr, Enc.termWidth]

/-- Claim C5: the primitive-type registry names the 8-byte unsigned
big-endian entry "Int32ub" (source line 26) and the 8-byte unsigned
native entry "Int32un" (source line 46), while the canonical names
encoding signedness, bit width and byte order are "Int64ub" and
"Int64un"; hence the registry does not map every (byte order, kind)
pair to its canonical name.  Every other entry agrees with the
canonical name. -/
theorem C5_registry_divergence :
    List.lookup ">Q" NUMBER_TYPES = some "Int32ub" ∧
    List.lookup "=Q" NUMBER_TYPES = some "Int32un" ∧
    FmtStr.s (FmtStr.mk .big .Q) = ">Q" ∧
    canonicalNumberName (FmtStr.mk .big .Q) = "Int64ub" ∧
    canonicalNumberName (FmtStr.mk .native .Q) = "Int64un" ∧
    ¬ (∀ f : FmtStr, List.lookup (FmtStr.s f) NUMBER_TYPES =
        some (canonicalNumberName f)) ∧
    (∀ f : FmtStr, f.code ≠ NumCode.Q →
      List.lookup (FmtStr.s f) NUMBER_TYPES = some (canonicalNumberName f)) ∧
    (∀ f : FmtStr, f.order = ByteOrder.little →
      List.lookup (FmtStr.s f) NUMBER_TYPES = some (canonicalNumberName f)) := by
  have hnotall : ¬ (∀ f : FmtStr, List.lookup (FmtStr.s f) NUMBER_TYPES =
      some (canonicalNumberName f)) := by
    intro hall
    have h := hall (FmtStr.mk .big .Q)
    rw [show FmtStr.s (FmtStr.mk .big .Q) = ">Q" from rfl] at h
    rw [show List.lookup ">Q" NUMBER_TYPES = some "Int32ub" from rfl] at h
    simp [canonicalNumberName] at h
  have hothers : ∀ f : FmtStr, f.code ≠ NumCode.Q →
      List.lookup (FmtStr.s f) NUMBER_TYPES = some (canonicalNumberName f) := by
    intro f hq
    obtain ⟨o, c⟩ := f
    cases o <;> cases c <;> first
      | rfl
      | exact absurd rfl hq
  have hlittle : ∀ f : FmtStr, f.order = ByteOrder.little →
      List.lookup (FmtStr.s f) NUMBER_TYPES = some (canonicalNumberName f) := by
    intro f ho
    obtain ⟨o, c⟩ := f
    cases o with
    | little => cases c <;> rfl
    | big => simp at ho
    | native => simp at ho
  exact ⟨rfl, rfl, rfl, rfl, rfl, hnotall, hothers, hlittle⟩

/-- Claim C8, counterexample: supplying empty raw bytes (and no decoded
value) is "raw bytes supplied", yet the constructor raises, because the
source checks Python truthiness (`if not raw and not parsed`), under
which `b""` counts as absent. -/
theorem C8_counterexample :
    VisiStruct.init [] (some []) none = none ∧ some ([] : List Nat) ≠ none := by
  exact ⟨rfl, by simp⟩

/-- Claim C8 (amended): construction raises if and only if both the raw
bytes and the decoded value are falsy under Python truthiness (absent,
or empty bytes / empty container); the check is performed inside the
constructor itself (the error value is the constructor's own result,
never deferred), and any other combination yields the populated
session. -/
theorem C8_construction_iff (format : List Schema) (raw : Option (List Nat))
    (parsed : Option Value) :
    (VisiStruct.init format raw parsed = none ↔
      (rawFalsy raw = true ∧ parsedFalsy parsed = true)) ∧
    (¬ (rawFalsy raw = true ∧ parsedFalsy parsed = true) →
      VisiStruct.init format raw parsed = some (Session.mk format raw parsed [])) := by
  constructor
  · unfold VisiStruct.init
    split
    · rename_i h
      rw [Bool.and_eq_true] at h
      simp [h.1, h.2]
    · rename_i h
      constructor
      · intro hsome
        simp at hsome
      · rintro ⟨h1, h2⟩
        rw [Bool.and_eq_true] at h
        exact absurd ⟨h1, h2⟩ h
  · intro hn
    unfold VisiStruct.init
    split
    · rename_i h
      simp at h
      exact absurd ⟨h.1, h.2⟩ hn
    · rfl

/-- Witness for the amended C8: with non-empty raw bytes construction
succeeds. -/
theorem C8_construction_iff_witness :
    VisiStruct.init [] (some [1]) none = some (Session.mk [] (some [1]) none []) :=
  (C8_construction_iff [] (some [1]) none).2 (by simp [rawFalsy])

/-- Claim C10: `chunk_bytes` raises when the field sequence is empty
(the initial `next(fields)` raises `StopIteration` outside any `try`),
when the raw bytes are absent, and when they are empty (`if not
self.raw`), for every chunk size. -/
theorem C10_chunk_requires (raw : Option (List Nat)) (fields : List Field) (cs : Nat) :
    chunk_bytes raw [] cs = none ∧
    chunk_bytes none fields cs = none ∧
    chunk_bytes (some []) fields cs = none := by
  refine ⟨?_, rfl, ?_⟩
  · cases raw with
    | none => rfl
    | some bytes =>
      simp only [chunk_bytes]
      split
      · rfl
      · rfl
  · simp only [chunk_bytes]
    rfl

/-- Claim C7: the color of the field at emission position `j` is drawn
from the fixed cyclic palette purely by position (`paletteAt j`,
independent of the field's identity), so identical inputs always yield
identical color sequences; with the (spec-modelled external) color
toggle off, the same walk yields the same fields with every color tag
empty and everything else identical. -/
theorem C7_color_positional :
    (∀ parsed subs fs, create_fields parsed subs = some fs →
      ∀ j (h : j < fs.length), (fs.get ⟨j, h⟩).color = paletteAt j) ∧
    (∀ parsed subs, create_fields_toggled true parsed subs = create_fields parsed subs) ∧
    (∀ parsed subs, create_fields_toggled false parsed subs =
      (create_fields parsed subs).map (List.map eraseColor)) := by
  refine ⟨?_, ?_, ?_⟩
  · intro parsed subs fs hw j h
    simp only [create_fields] at hw
    split at hw
    · simp at hw
    rename_i fs0 ns2 l2 hwalk
    simp at hw
    subst hw
    have hlen : j < fs0.length := by
      rw [← assignPass_length fs0 0 0]
      exact h
    have hg := assignPass_get? fs0 0 0 j
    rw [List.get?_eq_get h, List.get?_eq_get hlen] at hg
    have hg2 := Option.some.inj hg
    rw [hg2]
    simp
  · intro parsed subs
    simp only [create_fields, create_fields_toggled]
    cases walkList parsed subs none 0 with
    | none => rfl
    | some t => simp [assignPassToggled_true]
  · intro parsed subs
    simp only [create_fields, create_fields_toggled]
    cases walkList parsed subs none 0 with
    | none => rfl
    | some t => simp [assignPassToggled_false]

/-- Witness for C7: the second emitted field of a concrete two-field
schema carries the second palette color. -/
theorem C7_color_positional_witness :
    ([Field.mk "x" "Int32ul" 4 (some (.vInt 5)) "" 0 4 "cyan",
        Field.mk "y" "Int16ul" 2 (some (.vInt 7)) "" 0 6 "green"].get
      ⟨1, by norm_num⟩).color = paletteAt 1 :=
  C7_color_positional.1
    (Value.vContainer [("x", .vInt 5), ("y", .vInt 7)])
    [Schema.number "x" (FmtStr.mk .little .L), Schema.number "y" (FmtStr.mk .little .H)]
    [Field.mk "x" "Int32ul" 4 (some (.vInt 5)) "" 0 4 "cyan",
      Field.mk "y" "Int16ul" 2 (some (.vInt 7)) "" 0 6 "green"]
    (by simp [create_fields, walkList, walkOne, resolveValue, topGet, Value.getitem,
      List.lookup, unwrapEnum, assignPass, paletteAt, PALETTE, NUMBER_TYPES, FmtStr.s,
      ByteOrder.ch, NumCode.ch, NumCode.width])
    1 (by norm_num)

/-- A schema node that emits exactly one field at its own level
(everything except nested structs and dynamic arrays of structs). -/
def isLeaf : Schema → Bool
  | .struct _ _ => false
  | .arrayOfStruct _ _ _ => false
  | _ => true

/-- Inside an array element namespace `[name, idx]` the resolved parent
is the array's name (the last string step of the namespace). -/
theorem resolveValue_elem_parent (parsed : Value) (nm name : String) (i : Nat)
    (v : Value) (par : String)
    (h : resolveValue parsed nm (some [Step.str name, Step.idx i]) = some (v, par)) :
    par = name := by
  simp only [resolveValue] at h
  rw [if_neg (by simp)] at h
  split at h
  · simp at h
  rename_i v0 hred
  split at h
  · simp at h
  rename_i nm2 hlast
  split at h
  · simp at h
  rename_i v2 hct
  simp only [Option.some.injEq, Prod.mk.injEq] at h
  have hname : nm2 = name := by
    have hval : lastString [Step.str name, Step.idx i] = some name := rfl
    rw [hval] at hlast
    exact (Option.some.inj hlast).symm
  rw [← h.2]
  exact hname

/-- A leaf node walked inside an array element namespace emits exactly
one field carrying the current nesting level and the array's name as
parent, and leaves the namespace/nesting state unchanged. -/
theorem walkOne_leaf (parsed : Value) (sub : Schema) (name : String) (i l : Nat)
    (out : List Field × Option (List Step) × Nat)
    (hleaf : isLeaf sub = true)
    (hw : walkOne parsed sub (some [Step.str name, Step.idx i]) l = some out) :
    out.2.1 = some [Step.str name, Step.idx i] ∧ out.2.2 = l ∧
    ∀ f ∈ out.1, f.nested = l ∧ f.parent = name := by
  match sub with
  | .const nm lit =>
    simp only [walkOne] at hw
    split at hw
    · simp at hw
    rename_i v par hr
    simp at hw
    subst hw
    refine ⟨rfl, rfl, ?_⟩
    intro f hf
    simp at hf
    subst hf
    exact ⟨rfl, resolveValue_elem_parent parsed nm name i v par hr⟩
  | .number nm fmt =>
    simp only [walkOne] at hw
    split at hw
    · simp at hw
    rename_i v par hr
    split at hw
    · simp at hw
    simp at hw
    subst hw
    refine ⟨rfl, rfl, ?_⟩
    intro f hf
    simp at hf
    subst hf
    exact ⟨rfl, resolveValue_elem_parent parsed nm name i v par hr⟩
  | .enumNumber nm fmt =>
    simp only [walkOne] at hw
    split at hw
    · simp at hw
    rename_i v par hr
    split at hw
    · simp at hw
    simp at hw
    subst hw
    refine ⟨rfl, rfl, ?_⟩
    intro f hf
    simp at hf
    subst hf
    exact ⟨rfl, resolveValue_elem_parent parsed nm name i v par hr⟩
  | .cstring nm enc =>
    simp only [walkOne] at hw
    split at hw
    · simp at hw
    rename_i v par hr
    split at hw
    · rename_i s htop
      simp at hw
      subst hw
      refine ⟨rfl, rfl, ?_⟩
      intro f hf
      simp at hf
      subst hf
      exact ⟨rfl, resolveValue_elem_parent parsed nm name i v par hr⟩
    · simp at hw
  | .paddedString nm size enc =>
    simp only [walkOne] at hw
    split at hw
    · simp at hw
    rename_i v par hr
    simp at hw
    subst hw
    refine ⟨rfl, rfl, ?_⟩
    intro f hf
    simp at hf
    subst hf
    exact ⟨rfl, resolveValue_elem_parent parsed nm name i v par hr⟩
  | .pascalString nm enc =>
    simp only [walkOne] at hw
    split at hw
    · simp at hw
    rename_i v par hr
    split at hw
    · rename_i s htop
      simp at hw
      subst hw
      refine ⟨rfl, rfl, ?_⟩
      intro f hf
      simp at hf
      subst hf
      exact ⟨rfl, resolveValue_elem_parent parsed nm name i v par hr⟩
    · simp at hw
  | .arrayOfNumber nm cnt fmt =>
    simp only [walkOne] at hw
    split at hw
    · simp at hw
    rename_i v par hr
    split at hw
    · simp at hw
    simp at hw
    subst hw
    refine ⟨rfl, rfl, ?_⟩
    intro f hf
    simp at hf
    subst hf
    exact ⟨rfl, resolveValue_elem_parent parsed nm name i v par hr⟩
  | .struct nm subs => simp [isLeaf] at hleaf
  | .arrayOfStruct nm cf2 elem2 => simp [isLeaf] at hleaf

/-- Walking a list of leaf nodes inside an array element namespace
yields only fields at the current nesting level with the array's name
as parent. -/
theorem walkList_leaf (parsed : Value) (name : String) (elem : List Schema)
    (i l : Nat) (fs : List Field) (ns2 : Option (List Step)) (l2 : Nat)
    (hall : ∀ s ∈ elem, isLeaf s = true)
    (hw : walkList parsed elem (some [Step.str name, Step.idx i]) l =
      some (fs, ns2, l2)) :
    ∀ f ∈ fs, f.nested = l ∧ f.parent = name := by
  induction elem generalizing fs ns2 l2 with
  | nil =>
    simp only [walkList] at hw
    simp at hw
    rw [hw.1]
    simp
  | cons sub rest ih =>
    simp only [walkList] at hw
    split at hw
    · simp at hw
    rename_i fs1 ns1 l1 h1
    split at hw
    · simp at hw
    rename_i fs2 ns2b l2b h2
    simp at hw
    obtain ⟨hfs, -, -⟩ := hw
    subst hfs
    have hone := walkOne_leaf parsed sub name i l (fs1, ns1, l1)
      (hall sub (by simp)) h1
    obtain ⟨hns1, hl1, hflds⟩ := hone
    simp at hns1 hl1
    subst hns1
    subst hl1
    intro f hf
    rcases List.mem_append.1 hf with hf1 | hf2
    · exact hflds f hf1
    · exact ih fs2 ns2b l2b (fun s hs => hall s (List.mem_cons_of_mem _ hs)) h2 f hf2

/-- The dynamic-array loop over leaf elements emits exactly `k` groups
of fields, each group at nesting level `l` with the array's name as
parent. -/
theorem walkIdx_groups (parsed : Value) (name : String) (elem : List Schema)
    (hall : ∀ s ∈ elem, isLeaf s = true) :
    ∀ k i l fs, walkIdx parsed name elem k i l = some fs →
      ∃ groups : List (List Field), fs = groups.flatten ∧ groups.length = k ∧
        ∀ g ∈ groups, ∀ f ∈ g, f.nested = l ∧ f.parent = name := by
  intro k
  induction k with
  | zero =>
    intro i l fs hw
    simp only [walkIdx] at hw
    simp at hw
    subst hw
    exact ⟨[], by simp, by simp, by simp⟩
  | succ k2 ih =>
    intro i l fs hw
    simp only [walkIdx] at hw
    split at hw
    · simp at hw
    rename_i fs1 nsx lx h1
    split at hw
    · simp at hw
    rename_i fs2 h2
    simp at hw
    subst hw
    obtain ⟨groups, hjoin, hlen, hmem⟩ := ih (i + 1) l fs2 h2
    refine ⟨fs1 :: groups, by simp [hjoin], by simp [hlen], ?_⟩
    intro g hg
    rcases List.mem_cons.1 hg with hg1 | hg2
    · rw [hg1]
      exact walkList_leaf parsed name elem i l fs1 nsx lx hall h1
    · exact hmem g hg2

/-- Claim C4, counterexample: a dynamic array whose element structure
contains a nested struct emits the inner field with nesting level 2
(the array's level plus two) and parent "s" (the inner struct), not
the array's level plus one with parent "arr" as the claim asserts for
every element sub-field. -/
theorem C4_counterexample :
    (walkOne (Value.vContainer
        [("n", .vInt 1),
         ("arr", .vList [Value.vContainer
            [("s", Value.vContainer [("x", .vInt 5)])]])])
      (Schema.arrayOfStruct "arr" "n"
        [Schema.struct "s" [Schema.number "x" (FmtStr.mk .little .B)]])
      none 0).map (fun t => t.1.map (fun f => (f.nested, f.parent))) =
      some [(2, "s")] ∧
    ((2 : Nat), "s") ≠ ((0 + 1 : Nat), "arr") := by
  constructor
  · simp [walkOne, walkList, walkIdx, resolveValue, topGet, Value.getitem,
      List.lookup, unwrapEnum, reduceGetitem, lastString, containerTransform,
      pushName, NUMBER_TYPES, FmtStr.s, ByteOrder.ch, NumCode.ch, NumCode.width]
  · simp

/-- Claim C4 (amended): for a dynamically-sized array-of-structure
field whose count is read from the sibling field `cf` with decoded
value `k`, and whose element schema consists of leaf nodes only (no
nested struct or array inside the element), `create_fields` emits
exactly `k` groups of element sub-fields, each sub-field with `nested`
one greater than the array's own level and `parent` equal to the array
field's name; for `k = 0` it emits no fields and completes without
error. -/
theorem C4_dynamic_array (parsed : Value) (name cf : String) (elem : List Schema)
    (ns : Option (List Step)) (l : Nat) (out : List Field × Option (List Step) × Nat)
    (k : Int)
    (hleaf : ∀ s ∈ elem, isLeaf s = true)
    (hw : walkOne parsed (Schema.arrayOfStruct name cf elem) ns l = some out)
    (hk : topGet parsed cf = some (.vInt k)) :
    (∃ groups : List (List Field), out.1 = groups.flatten ∧ groups.length = k.toNat ∧
      ∀ g ∈ groups, ∀ f ∈ g, f.nested = l + 1 ∧ f.parent = name) ∧
    (k = 0 → out = ([], none, 0)) := by
  simp only [walkOne] at hw
  split at hw
  · simp at hw
  rename_i v par hr
  split at hw
  · rename_i k0 htop
    rw [hk] at htop
    simp at htop
    subst htop
    split at hw
    · simp at hw
    rename_i fs0 hidx
    simp at hw
    subst hw
    constructor
    · exact walkIdx_groups parsed name elem hleaf k.toNat 0 (l + 1) fs0 hidx
    · intro hk0
      subst hk0
      simp only [Int.toNat_zero, walkIdx] at hidx
      simp at hidx
      subst hidx
      rfl
  · rw [hk] at *
    rename_i hne
    exact absurd rfl (hne k)

/-- Witness for the amended C4: a two-element dynamic array of a
single-number structure emits two groups, each field at level 1 with
parent "arr". -/
theorem C4_dynamic_array_witness :
    ∃ groups : List (List Field),
      ([Field.mk "x" "Int8ul" 1 (some (.vInt 1)) "arr" 1 0 "",
        Field.mk "x" "Int8ul" 1 (some (.vInt 2)) "arr" 1 0 ""],
          (none : Option (List Step)), 0).1 = groups.flatten ∧
      groups.length = (2 : Int).toNat ∧
      ∀ g ∈ groups, ∀ f ∈ g, f.nested = 0 + 1 ∧ f.parent = "arr" := by
  refine (C4_dynamic_array (Value.vContainer
      [("n", .vInt 2),
        ("arr", .vList [Value.vContainer [("x", .vInt 1)],
          Value.vContainer [("x", .vInt 2)]])])
    "arr" "n" [Schema.number "x" (FmtStr.mk .little .B)] none 0
    ([Field.mk "x" "Int8ul" 1 (some (.vInt 1)) "arr" 1 0 "",
      Field.mk "x" "Int8ul" 1 (some (.vInt 2)) "arr" 1 0 ""], none, 0)
    2 (by simp [isLeaf]) ?_ (by simp [topGet, Value.getitem, List.lookup])).1
  simp [walkOne, walkList, walkIdx, resolveValue, topGet, Value.getitem,
    List.lookup, unwrapEnum, reduceGetitem, lastString, containerTransform,
    NUMBER_TYPES, FmtStr.s, ByteOrder.ch, NumCode.ch, NumCode.width]

/-! Facts about the hex partitioner. -/

theorem chunkLoop_length (units : List String) (n : Nat) (f : Field) (fs : List Field)
    (padded : Nat) : (chunkLoop units n f fs padded).length = units.length := by
  induction units generalizing n f fs with
  | nil => simp [chunkLoop]
  | cons u rest ih => simp [chunkLoop, ih]

theorem chunksOf_flatten (cs : Nat) (h : 0 < cs) (l : List Cell) :
    (chunksOf cs l).flatten = l := by
  match l with
  | [] => simp [chunksOf]
  | x :: xs =>
    simp only [chunksOf, List.flatten_cons]
    rw [chunksOf_flatten cs h (xs.drop (cs - 1))]
    cases cs with
    | zero => omega
    | succ c =>
      simp only [List.take_succ_cons, Nat.add_sub_cancel, List.cons_append,
        List.cons.injEq, true_and]
      exact List.take_append_drop c xs
termination_by l.length
decreasing_by
  simp_wf
  have := List.length_drop (cs - 1) xs
  omega

/-- Once the cursor has passed every field's offset and had time to
exhaust the iterator (at byte index `A + (L - 1)` and beyond, where
`A` bounds `max offset 1` and `L` bounds the number of fields), every
remaining real-byte cell is styled with the LAST field's color — the
`except StopIteration: pass` of the source keeps the last field
current forever. -/
theorem chunkLoop_last (A B L : Nat) (flast : Field) (hAB : B ≤ A) (hA1 : 1 ≤ A) :
    ∀ (units : List String) (n : Nat) (cur : Field) (rem : List Field) (padded : Nat),
    (∀ g ∈ cur :: rem, g.offset ≤ B) →
    (cur :: rem).getLast? = some flast →
    rem.length + 1 ≤ L →
    (rem ≠ [] → n / 2 ≤ A + (L - 1 - rem.length)) →
    ∀ j, j < units.length → A + (L - 1) ≤ n / 2 + j →
      ((chunkLoop units n cur rem padded).get? j).map Cell.color =
        some (if n + 2 * j < padded then flast.color else "") := by
  intro units
  induction units with
  | nil =>
    intro n cur rem padded hB hlast hL hreach j hj htarget
    simp at hj
  | cons u rest ih =>
    intro n cur rem padded hB hlast hL hreach j hj htarget
    have hdiv : (n + 2) / 2 = n / 2 + 1 := Nat.add_div_right n (by norm_num)
    cases j with
    | zero =>
      have hrem : rem = [] := by
        by_contra hne
        have h1 := hreach hne
        have h2 : 1 ≤ rem.length := List.length_pos.2 hne
        omega
      subst hrem
      have hcur : cur = flast := by
        simp at hlast
        exact hlast
      subst hcur
      have hadv : advanceField n cur [] = (cur, []) := by
        unfold advanceField
        split
        · rfl
        · rfl
      simp [chunkLoop, hadv]
    | succ j2 =>
      have hstep : ∀ st : Field × List Field,
          advanceField n cur rem = st →
          (∀ g ∈ st.1 :: st.2, g.offset ≤ B) →
          (st.1 :: st.2).getLast? = some flast →
          st.2.length + 1 ≤ L →
          (st.2 ≠ [] → (n + 2) / 2 ≤ A + (L - 1 - st.2.length)) →
          ((chunkLoop (u :: rest) n cur rem padded).get? (j2 + 1)).map Cell.color =
            some (if n + 2 * (j2 + 1) < padded then flast.color else "") := by
        intro st hst hB2 hlast2 hL2 hreach2
        simp only [chunkLoop, hst, List.get?_cons_succ]
        rw [show n + 2 * (j2 + 1) = (n + 2) + 2 * j2 from by ring]
        exact ih (n + 2) st.1 st.2 padded hB2 hlast2 hL2 hreach2 j2
          (by simpa using hj) (by omega)
      by_cases hc : n / 2 > cur.offset - 1 ∧ 0 < n
      · cases rem with
        | nil =>
          refine hstep (cur, []) ?_ hB hlast hL ?_
          · unfold advanceField
            rw [if_pos hc]
          · intro hne
            exact absurd rfl hne
        | cons g gs =>
          have hadv : advanceField n cur (g :: gs) = (g, gs) := by
            unfold advanceField
            rw [if_pos hc]
          refine hstep (g, gs) hadv ?_ ?_ ?_ ?_
          · intro x hx
            exact hB x (List.mem_cons_of_mem cur hx)
          · rw [List.getLast?_cons_cons] at hlast
            exact hlast
          · show gs.length + 1 ≤ L
            simp only [List.length_cons] at hL
            omega
          · intro hne
            show (n + 2) / 2 ≤ A + (L - 1 - gs.length)
            rw [hdiv]
            have h1 := hreach (by simp)
            have h2 : 1 ≤ gs.length := List.length_pos.2 hne
            simp only [List.length_cons] at hL h1
            omega
      · have hadv : advanceField n cur rem = (cur, rem) := by
          unfold advanceField
          rw [if_neg hc]
        refine hstep (cur, rem) hadv hB hlast hL ?_
        intro hne
        have h1 := hreach hne
        have hoff : cur.offset ≤ B := hB cur (List.mem_cons_self cur rem)
        rw [Decidable.not_and_iff_or_not] at hc
        rcases hc with hc1 | hc2
        · simp at hc1
          omega
        · simp at hc2
          subst hc2
          simp
          omega

/-- Claim C6, counterexample: with a single field of offset 1 and color
"cyan" over two raw bytes, the trailing byte (index 1, owned by no
field; the iterator is exhausted there) is styled "cyan" — the last
field's color — not left uncolored. -/
theorem C6_counterexample :
    (chunk_bytes (some [0, 0])
        [Field.mk "a" "Int8ul" 1 (some (.vInt 0)) "" 0 1 "cyan"] 2).map
      (fun rows => rows.flatten.map Cell.color) = some ["cyan", "cyan"] ∧
    "cyan" ≠ "" := by
  constructor
  · simp [chunk_bytes, chunkLoop, chunksOf, advanceField, byteHex, hexDigit]
  · simp

/-- Claim C6 (amended): if the field sequence is exhausted before all
bytes of the raw buffer are assigned, processing the trailing bytes
raises no error, but the remaining byte cells are NOT left uncolored:
once the cursor passes every field's offset and the iterator drains
(within fields.length bytes after the last offset), every remaining
real-byte cell is styled with the LAST field's color. -/
theorem C6_trailing_bytes (bytes : List Nat) (fields : List Field) (cs : Nat)
    (flast : Field)
    (hby : bytes ≠ []) (hcs : 0 < cs)
    (hlast : fields.getLast? = some flast)
    (hB : ∀ g ∈ fields, g.offset ≤ flast.offset) :
    ∃ rows, chunk_bytes (some bytes) fields cs = some rows ∧
      ∀ i, max flast.offset 1 + (fields.length - 1) ≤ i → i < bytes.length →
        (rows.flatten.get? i).map Cell.color = some flast.color := by
  cases fields with
  | nil => simp at hlast
  | cons f fs =>
    have hform : chunk_bytes (some bytes) (f :: fs) cs =
        some (chunksOf cs (chunkLoop
          (bytes.map byteHex ++ List.replicate
            (if bytes.length % cs = 0 then 0
              else (bytes.length / cs + 1) * cs - bytes.length) "..")
          0 f fs (2 * bytes.length))) := by
      simp only [chunk_bytes]
      rw [if_neg (by simpa using hby), if_neg (by omega)]
    refine ⟨_, hform, ?_⟩
    intro i hge hlt
    rw [chunksOf_flatten cs hcs]
    have hcell := chunkLoop_last (max flast.offset 1) flast.offset (f :: fs).length
      flast (Nat.le_max_left _ _) (Nat.le_max_right _ _)
      (bytes.map byteHex ++ List.replicate
        (if bytes.length % cs = 0 then 0
          else (bytes.length / cs + 1) * cs - bytes.length) "..")
      0 f fs (2 * bytes.length) hB hlast (by simp)
      (by intro hne; simp)
      i
      (by
        simp only [List.length_append, List.length_map, List.length_replicate]
        omega)
      (by
        simp only [List.length_cons]
        simp at hge
        omega)
    rw [hcell, if_pos (by omega)]

/-- Witness for the amended C6 at the concrete counterexample input:
the trailing byte cell exists and is styled with the last field's
color. -/
theorem C6_trailing_bytes_witness :
    ∃ rows, chunk_bytes (some [0, 0])
        [Field.mk "a" "Int8ul" 1 (some (.vInt 0)) "" 0 1 "cyan"] 2 = some rows ∧
      ∀ i, max (Field.mk "a" "Int8ul" 1 (some (.vInt 0)) "" 0 1 "cyan").offset 1 +
          ([Field.mk "a" "Int8ul" 1 (some (.vInt 0)) "" 0 1 "cyan"].length - 1) ≤ i →
        i < ([0, 0] : List Nat).length →
        (rows.flatten.get? i).map Cell.color =
          some (Field.mk "a" "Int8ul" 1 (some (.vInt 0)) "" 0 1 "cyan").color :=
  C6_trailing_bytes [0, 0] [Field.mk "a" "Int8ul" 1 (some (.vInt 0)) "" 0 1 "cyan"] 2
    (Field.mk "a" "Int8ul" 1 (some (.vInt 0)) "" 0 1 "cyan")
    (by simp) (by norm_num) (by simp) (by simp)

end Visistruct
